import Mathlib

/-!
Shallow embedding of the ormlite relation engine (Go, package `ormlite`),
covering the many-to-many junction reconciliation (`upsert.go`:
`syncManyToManyRelation`, `getStoredRelations`, `buildInsertRelationQuery`,
`buildDeleteRelationQuery`), the depth-bounded relation loader
(`ormlite.go`: `loadStructRelations`, `loadHasOneRelation`), the upsert
pipeline (`upsert.go`: `inserter.insert`, `buildSearchQuery`,
`getModelColumns`, `syncHasOneRelation`, `syncHasManyRelation`), the
update/delete error paths, and the select predicate rendering
(`ormlite.go`: `queryWithOptions`).
-/

namespace Ormlite

/-! ## Many-to-many reconciliation (`upsert.go`)

A junction identity is the tuple of primary-key values of a related record
(`getModelPkKeys` produces `[]interface{}`; `sliceAsArray` turns it into a
comparable array used as a map key).  We embed identities as `List Int`.
The stored set is read by `getStoredRelations` into a Go
`map[interface{}]bool` with every flag `false`; we embed that map as an
association list in read order. -/

abbrev Identity := List Int

abbrev RelMapping := List (Identity × Bool)

/-- Go map lookup `_, ok := mapping[k]` (key present test). -/
def mapHas : RelMapping → Identity → Bool
  | [], _ => false
  | p :: rest, k => p.1 == k || mapHas rest k

/-- Go map lookup `mapping[k]` returning the flag when present. -/
def mapLookup : RelMapping → Identity → Option Bool
  | [], _ => none
  | p :: rest, k => if p.1 = k then some p.2 else mapLookup rest k

/-- Go map store `mapping[k] = b`: replaces the entry when the key is
present, otherwise appends it. -/
def mapSet : RelMapping → Identity → Bool → RelMapping
  | [], k, b => [(k, b)]
  | p :: rest, k, b => if p.1 = k then (k, b) :: rest else p :: mapSet rest k b

/-- The map built by `getStoredRelations`: every stored identity mapped to
`false` (`result[sliceAsArray(keys)] = false`). -/
def initialMapping (stored : List Identity) : RelMapping :=
  stored.map (fun k => (k, false))

/-- First loop of `syncManyToManyRelation`: for each desired identity, if it
is missing from the mapping an insert statement is issued, and the mapping
entry is set to `true` either way.  Returns the identities inserted (in
order) and the final mapping. -/
def markLoop : List Identity → RelMapping → List Identity × RelMapping
  | [], m => ([], m)
  | k :: ks, m =>
    let ins := if mapHas m k then [] else [k]
    let step := markLoop ks (mapSet m k true)
    (ins ++ step.1, step.2)

/-- Second loop of `syncManyToManyRelation`: every mapping entry still
flagged `false` gets a delete statement, in mapping order. -/
def pendingDeletes : RelMapping → List Identity
  | [] => []
  | p :: rest => if p.2 then pendingDeletes rest else p.1 :: pendingDeletes rest

/-- A reconciling junction statement: `buildInsertRelationQuery` or
`buildDeleteRelationQuery` for one identity (the parent-key columns and the
static condition are fixed for the whole call, so they are left implicit in
the scope). -/
inductive JStmt where
  | insertRel (k : Identity)
  | deleteRel (k : Identity)
deriving DecidableEq, Repr

/-- The statement sequence executed by `syncManyToManyRelation`: inserts
during the first loop, then deletes during the second.  Neither loop reads
the database, so the sequence is a function of the stored and desired
identity lists alone. -/
def plannedStmts (stored desired : List Identity) : List JStmt :=
  let r := markLoop desired (initialMapping stored)
  r.1.map JStmt.insertRel ++ (pendingDeletes r.2).map JStmt.deleteRel

/-- Outcome of `db.ExecContext` followed by `res.RowsAffected()`:
either a row count, an execution error, or a failure to obtain the count. -/
inductive ExecOutcome where
  | ok (rowsAffected : Nat)
  | execErr
  | raErr
deriving DecidableEq, Repr

/-- `err != nil || ra == 0` — any outcome the sync loops treat as fatal
after a successful statement build. -/
def badOutcome : ExecOutcome → Bool
  | .ok ra => ra == 0
  | .execErr => true
  | .raErr => true

/-- Errors `syncManyToManyRelation` returns: a wrapped execution error, or
the `din't affect any row` error when the count is zero or unobtainable. -/
inductive SyncErr where
  | execError (s : JStmt)
  | noRowsError (s : JStmt)
deriving DecidableEq, Repr

/-- Effect of one statement on the junction rows in the call's scope:
insert appends a row; delete removes every row whose identity columns
match the keys. -/
def applyStmt : JStmt → List Identity → List Identity
  | .insertRel k, rows => rows ++ [k]
  | .deleteRel k, rows => rows.filter (fun r => r != k)

/-- Executes the planned statements in order against an abstract driver,
stopping at the first error exactly as the Go loops do, and recording the
trace of executed statements with their outcomes. -/
def execPlanT (driver : JStmt → List Identity → ExecOutcome) :
    List JStmt → List Identity → Except SyncErr (List Identity) × List (JStmt × ExecOutcome)
  | [], rows => (Except.ok rows, [])
  | s :: rest, rows =>
    match driver s rows with
    | .execErr => (Except.error (SyncErr.execError s), [(s, ExecOutcome.execErr)])
    | .raErr => (Except.error (SyncErr.noRowsError s), [(s, ExecOutcome.raErr)])
    | .ok 0 => (Except.error (SyncErr.noRowsError s), [(s, ExecOutcome.ok 0)])
    | .ok (n + 1) =>
      let step := execPlanT driver rest (applyStmt s rows)
      (step.1, (s, ExecOutcome.ok (n + 1)) :: step.2)

/-- The SQLite driver on a well-configured junction table: an insert
affects one row; a delete affects as many rows as match the identity. -/
def realDriver : JStmt → List Identity → ExecOutcome
  | .insertRel _, _ => ExecOutcome.ok 1
  | .deleteRel k, rows => ExecOutcome.ok (rows.countP (fun r => r == k))

/-- `syncManyToManyRelation` at the set level: read the stored mapping,
run both loops against the real driver, and return the final junction rows
for the call's scope. -/
def syncManyToManyRelation (stored desired : List Identity) :
    Except SyncErr (List Identity) :=
  (execPlanT realDriver (plannedStmts stored desired) stored).1

/-! ### Mapping lemmas -/

theorem mapHas_iff (m : RelMapping) (k : Identity) :
    mapHas m k = true ↔ ∃ b, mapLookup m k = some b := by
  induction m with
  | nil => simp [mapHas, mapLookup]
  | cons p rest ih =>
    simp only [mapHas, mapLookup, Bool.or_eq_true, beq_iff_eq]
    by_cases h : p.1 = k
    · simp [h]
    · simp [h, ih]

theorem mapLookup_set_self (m : RelMapping) (k : Identity) (b : Bool) :
    mapLookup (mapSet m k b) k = some b := by
  induction m with
  | nil => simp [mapSet, mapLookup]
  | cons p rest ih =>
    by_cases h : p.1 = k
    · simp [mapSet, h, mapLookup]
    · simp [mapSet, h, mapLookup, ih]

theorem mapLookup_set_ne (m : RelMapping) (k x : Identity) (b : Bool) (hx : x ≠ k) :
    mapLookup (mapSet m k b) x = mapLookup m x := by
  induction m with
  | nil =>
    simp only [mapSet, mapLookup]
    rw [if_neg (fun h => hx h.symm)]
  | cons p rest ih =>
    by_cases h : p.1 = k
    · simp only [mapSet, if_pos h, mapLookup]
      rw [if_neg (fun hh : k = x => hx hh.symm), if_neg (h ▸ (fun hh : p.1 = x => hx (hh ▸ h ▸ rfl)))]
    · simp only [mapSet, if_neg h, mapLookup]
      by_cases hpx : p.1 = x
      · rw [if_pos hpx, if_pos hpx]
      · rw [if_neg hpx, if_neg hpx, ih]

theorem mapHas_set (m : RelMapping) (k x : Identity) (b : Bool) :
    mapHas (mapSet m k b) x = true ↔ mapHas m x = true ∨ x = k := by
  by_cases hx : x = k
  · subst hx
    simp [mapHas_iff, mapLookup_set_self]
  · rw [mapHas_iff, mapLookup_set_ne m k x b hx, ← mapHas_iff]
    simp [hx]

theorem mapHas_initial (stored : List Identity) (x : Identity) :
    mapHas (initialMapping stored) x = true ↔ x ∈ stored := by
  induction stored with
  | nil => simp [initialMapping, mapHas]
  | cons s rest ih =>
    simp only [initialMapping, List.map_cons, mapHas, Bool.or_eq_true, beq_iff_eq,
      List.mem_cons]
    constructor
    · rintro (h | h)
      · exact Or.inl h.symm
      · exact Or.inr ((ih).mp h)
    · rintro (h | h)
      · exact Or.inl h.symm
      · exact Or.inr ((ih).mpr h)

theorem mapLookup_initial (stored : List Identity) (x : Identity) :
    mapLookup (initialMapping stored) x = if x ∈ stored then some false else none := by
  induction stored with
  | nil => simp [initialMapping, mapLookup]
  | cons s rest ih =>
    simp only [initialMapping, List.map_cons, mapLookup] at ih ⊢
    by_cases h : s = x
    · rw [if_pos h, if_pos (List.mem_cons.mpr (Or.inl h.symm))]
    · rw [if_neg h, ih]
      by_cases hx : x ∈ rest
      · rw [if_pos hx, if_pos (List.mem_cons.mpr (Or.inr hx))]
      · rw [if_neg hx, if_neg ?_]
        simp only [List.mem_cons, not_or]
        exact ⟨fun hh => h hh.symm, hx⟩

theorem mapHas_mem_keys (m : RelMapping) (k : Identity) :
    mapHas m k = true ↔ k ∈ m.map Prod.fst := by
  induction m with
  | nil => simp [mapHas]
  | cons p rest ih =>
    simp only [mapHas, Bool.or_eq_true, beq_iff_eq, List.map_cons, List.mem_cons, ih]
    constructor
    · rintro (h | h)
      · exact Or.inl h.symm
      · exact Or.inr h
    · rintro (h | h)
      · exact Or.inl h.symm
      · exact Or.inr h

theorem keys_mapSet (m : RelMapping) (k : Identity) (b : Bool) :
    (mapSet m k b).map Prod.fst =
      if mapHas m k then m.map Prod.fst else m.map Prod.fst ++ [k] := by
  induction m with
  | nil => simp [mapSet, mapHas]
  | cons p rest ih =>
    by_cases h : p.1 = k
    · simp [mapSet, h, mapHas]
    · have hbeq : (p.1 == k) = false := by simp [h]
      simp only [mapSet, if_neg h, List.map_cons, mapHas, hbeq, Bool.false_or, ih]
      by_cases hm : mapHas rest k
      · rw [if_pos hm, if_pos hm]
      · rw [if_neg hm, if_neg hm, List.cons_append]

theorem keysNodup_mapSet (m : RelMapping) (k : Identity) (b : Bool)
    (h : (m.map Prod.fst).Nodup) : ((mapSet m k b).map Prod.fst).Nodup := by
  rw [keys_mapSet]
  by_cases hm : mapHas m k
  · simpa [hm] using h
  · rw [if_neg hm]
    have hk : k ∉ m.map Prod.fst := fun hmem => hm ((mapHas_mem_keys m k).mpr hmem)
    simp [List.nodup_append, h, hk]

theorem mapHas_set_false (m : RelMapping) (k x : Identity) (b : Bool) :
    mapHas (mapSet m k b) x = false ↔ mapHas m x = false ∧ x ≠ k := by
  rw [← Bool.not_eq_true, ← Bool.not_eq_true, mapHas_set]
  tauto

theorem mem_markLoop_ins (ks : List Identity) (m : RelMapping) (x : Identity) :
    x ∈ (markLoop ks m).1 ↔ x ∈ ks ∧ mapHas m x = false := by
  induction ks generalizing m with
  | nil => simp [markLoop]
  | cons k rest ih =>
    simp only [markLoop, List.mem_append, ih, List.mem_cons, mapHas_set_false]
    by_cases hmk : mapHas m k = true
    · rw [if_pos hmk]
      constructor
      · rintro (hmem | ⟨hxr, hmx, hxk⟩)
        · simp at hmem
        · exact ⟨Or.inr hxr, hmx⟩
      · rintro ⟨hxks, hmx⟩
        rcases hxks with rfl | hxr
        · rw [hmx] at hmk; exact absurd hmk (by simp)
        · right
          refine ⟨hxr, hmx, fun hxk => ?_⟩
          subst hxk
          rw [hmx] at hmk
          exact absurd hmk (by simp)
    · rw [if_neg hmk]
      constructor
      · rintro (hmem | ⟨hxr, hmx, hxk⟩)
        · rw [List.mem_singleton] at hmem
          subst hmem
          exact ⟨Or.inl rfl, (Bool.not_eq_true (mapHas m x)) ▸ hmk⟩
        · exact ⟨Or.inr hxr, hmx⟩
      · rintro ⟨hxks, hmx⟩
        rcases hxks with rfl | hxr
        · exact Or.inl (List.mem_singleton.mpr rfl)
        · by_cases hxk : x = k
          · subst hxk
            exact Or.inl (List.mem_singleton.mpr rfl)
          · exact Or.inr ⟨hxr, hmx, hxk⟩

theorem mapLookup_markLoop (ks : List Identity) (m : RelMapping) (x : Identity) :
    mapLookup (markLoop ks m).2 x = if x ∈ ks then some true else mapLookup m x := by
  induction ks generalizing m with
  | nil => simp [markLoop]
  | cons k rest ih =>
    simp only [markLoop, ih, List.mem_cons]
    by_cases hx : x ∈ rest
    · rw [if_pos hx, if_pos (Or.inr hx)]
    · rw [if_neg hx]
      by_cases hxk : x = k
      · subst hxk
        rw [mapLookup_set_self, if_pos (Or.inl rfl)]
      · rw [mapLookup_set_ne m k x true hxk, if_neg ?_]
        push_neg
        exact ⟨hxk, hx⟩

theorem keysNodup_markLoop (ks : List Identity) (m : RelMapping)
    (h : (m.map Prod.fst).Nodup) : (((markLoop ks m).2).map Prod.fst).Nodup := by
  induction ks generalizing m with
  | nil => simpa [markLoop] using h
  | cons k rest ih =>
    simp only [markLoop]
    exact ih (mapSet m k true) (keysNodup_mapSet m k true h)

theorem nodup_markLoop_ins (ks : List Identity) (m : RelMapping) :
    ((markLoop ks m).1).Nodup := by
  induction ks generalizing m with
  | nil => simp [markLoop]
  | cons k rest ih =>
    simp only [markLoop]
    by_cases hm : mapHas m k
    · simpa [hm] using ih (mapSet m k true)
    · simp only [if_neg hm, List.singleton_append, List.nodup_cons]
      refine ⟨fun hmem => ?_, ih (mapSet m k true)⟩
      have := (mem_markLoop_ins rest (mapSet m k true) k).mp hmem
      have hk : mapHas (mapSet m k true) k = true := (mapHas_set m k k true).mpr (Or.inr rfl)
      rw [this.2] at hk
      exact Bool.false_ne_true hk

theorem mem_pendingDeletes_keys (m : RelMapping) (x : Identity) :
    x ∈ pendingDeletes m → x ∈ m.map Prod.fst := by
  induction m with
  | nil => simp [pendingDeletes]
  | cons p rest ih =>
    simp only [pendingDeletes, List.map_cons, List.mem_cons]
    by_cases hb : p.2
    · rw [if_pos hb]
      exact fun h => Or.inr (ih h)
    · rw [if_neg hb]
      intro hmem
      rcases List.mem_cons.mp hmem with h | h
      · exact Or.inl h
      · exact Or.inr (ih h)

theorem mem_pendingDeletes (m : RelMapping) (hkeys : (m.map Prod.fst).Nodup)
    (x : Identity) : x ∈ pendingDeletes m ↔ mapLookup m x = some false := by
  induction m with
  | nil => simp [pendingDeletes, mapLookup]
  | cons p rest ih =>
    simp only [List.map_cons, List.nodup_cons] at hkeys
    simp only [pendingDeletes, mapLookup]
    by_cases hx : p.1 = x
    · rw [if_pos hx]
      by_cases hb : p.2 = true
      · rw [if_pos hb]
        constructor
        · intro h
          exact absurd (by rw [hx]; exact mem_pendingDeletes_keys rest x h) hkeys.1
        · intro h
          rw [hb] at h
          exact absurd (Option.some_inj.mp h) (by simp)
      · rw [if_neg hb, List.mem_cons]
        have hbf : p.2 = false := Bool.not_eq_true p.2 ▸ hb
        constructor
        · intro _
          rw [hbf]
        · intro _
          exact Or.inl hx.symm
    · rw [if_neg hx, ← ih hkeys.2]
      by_cases hb : p.2 = true
      · rw [if_pos hb]
      · rw [if_neg hb, List.mem_cons]
        constructor
        · rintro (h | h)
          · exact absurd h.symm hx
          · exact h
        · exact fun h => Or.inr h

/-! ### The planned inserts and deletes, characterized -/

/-- The identities inserted by a reconciliation run. -/
def plannedInserts (stored desired : List Identity) : List Identity :=
  (markLoop desired (initialMapping stored)).1

/-- The identities deleted by a reconciliation run. -/
def plannedDeletes (stored desired : List Identity) : List Identity :=
  pendingDeletes (markLoop desired (initialMapping stored)).2

theorem keys_initialMapping (stored : List Identity) :
    (initialMapping stored).map Prod.fst = stored := by
  induction stored with
  | nil => rfl
  | cons s rest ih =>
    simp only [initialMapping, List.map_cons] at ih ⊢
    rw [ih]

theorem mem_plannedInserts (stored desired : List Identity) (x : Identity) :
    x ∈ plannedInserts stored desired ↔ x ∈ desired ∧ x ∉ stored := by
  rw [plannedInserts, mem_markLoop_ins]
  constructor
  · rintro ⟨h1, h2⟩
    refine ⟨h1, fun hmem => ?_⟩
    have hcontra := (mapHas_initial stored x).mpr hmem
    rw [h2] at hcontra
    exact Bool.false_ne_true hcontra
  · rintro ⟨h1, h2⟩
    refine ⟨h1, ?_⟩
    cases hcase : mapHas (initialMapping stored) x with
    | false => rfl
    | true => exact absurd ((mapHas_initial stored x).mp hcase) h2

theorem mem_plannedDeletes (stored desired : List Identity) (hS : stored.Nodup)
    (x : Identity) :
    x ∈ plannedDeletes stored desired ↔ x ∈ stored ∧ x ∉ desired := by
  have hkeys : ((initialMapping stored).map Prod.fst).Nodup := by
    rw [keys_initialMapping]; exact hS
  have hkeys2 := keysNodup_markLoop desired (initialMapping stored) hkeys
  rw [plannedDeletes, mem_pendingDeletes _ hkeys2, mapLookup_markLoop, mapLookup_initial]
  by_cases hd : x ∈ desired
  · simp [hd]
  · by_cases hs : x ∈ stored
    · simp [hd, hs]
    · simp [hd, hs]

theorem nodup_plannedInserts (stored desired : List Identity) :
    (plannedInserts stored desired).Nodup :=
  nodup_markLoop_ins desired (initialMapping stored)

theorem pendingDeletes_sublist (m : RelMapping) :
    (pendingDeletes m).Sublist (m.map Prod.fst) := by
  induction m with
  | nil => simp [pendingDeletes]
  | cons p rest ih =>
    simp only [pendingDeletes, List.map_cons]
    by_cases hb : p.2 = true
    · rw [if_pos hb]
      exact List.Sublist.cons p.1 ih
    · rw [if_neg hb]
      exact List.Sublist.cons₂ p.1 ih

theorem nodup_plannedDeletes (stored desired : List Identity) (hS : stored.Nodup) :
    (plannedDeletes stored desired).Nodup := by
  have hkeys : ((initialMapping stored).map Prod.fst).Nodup := by
    rw [keys_initialMapping]; exact hS
  exact List.Nodup.sublist (pendingDeletes_sublist _)
    (keysNodup_markLoop desired (initialMapping stored) hkeys)

theorem plannedStmts_eq (stored desired : List Identity) :
    plannedStmts stored desired =
      (plannedInserts stored desired).map JStmt.insertRel ++
        (plannedDeletes stored desired).map JStmt.deleteRel := rfl

/-! ### Executing the plan -/

theorem execPlanT_append_ok (d : JStmt → List Identity → ExecOutcome)
    (p q : List JStmt) (J J2 : List Identity)
    (h : (execPlanT d p J).1 = Except.ok J2) :
    (execPlanT d (p ++ q) J).1 = (execPlanT d q J2).1 := by
  induction p generalizing J with
  | nil =>
    simp only [execPlanT] at h
    cases h
    rfl
  | cons s rest ih =>
    simp only [List.cons_append, execPlanT] at h ⊢
    cases ho : d s J with
    | execErr => rw [ho] at h; simp at h
    | raErr => rw [ho] at h; simp at h
    | ok n =>
      cases n with
      | zero => rw [ho] at h; simp at h
      | succ m =>
        rw [ho] at h
        dsimp only at h ⊢
        exact ih (applyStmt s J) h

theorem execPlanT_inserts (ins : List Identity) (J : List Identity) :
    execPlanT realDriver (ins.map JStmt.insertRel) J =
      (Except.ok (J ++ ins),
        ins.map (fun k => (JStmt.insertRel k, ExecOutcome.ok 1))) := by
  induction ins generalizing J with
  | nil => simp [execPlanT]
  | cons k rest ih =>
    simp only [List.map_cons, execPlanT, realDriver, applyStmt]
    rw [ih (J ++ [k])]
    simp [List.append_assoc]

theorem execPlanT_deletes (del : List Identity) (J : List Identity)
    (hnd : del.Nodup) (hsub : ∀ k ∈ del, k ∈ J) :
    (execPlanT realDriver (del.map JStmt.deleteRel) J).1 =
      Except.ok (J.filter (fun r => decide (r ∉ del))) := by
  induction del generalizing J with
  | nil => simp [execPlanT]
  | cons k rest ih =>
    simp only [List.map_cons, execPlanT, realDriver]
    have hkJ : k ∈ J := hsub k (List.mem_cons_self k rest)
    have hcount : 0 < J.countP (fun r => r == k) := by
      rw [List.countP_pos_iff]
      exact ⟨k, hkJ, by simp⟩
    obtain ⟨c, hc⟩ : ∃ c, J.countP (fun r => r == k) = c + 1 :=
      ⟨J.countP (fun r => r == k) - 1, (Nat.succ_pred_eq_of_pos hcount).symm⟩
    rw [hc]
    dsimp only [applyStmt]
    have hnd2 : rest.Nodup := (List.nodup_cons.mp hnd).2
    have hknr : k ∉ rest := (List.nodup_cons.mp hnd).1
    rw [ih (J.filter (fun r => r != k)) hnd2 ?hsub2]
    case hsub2 =>
      intro x hx
      rw [List.mem_filter]
      refine ⟨hsub x (List.mem_cons_of_mem k hx), ?_⟩
      have hxk : x ≠ k := fun hh => hknr (hh ▸ hx)
      simp [hxk]
    rw [List.filter_filter]
    congr 1
    apply List.filter_congr
    intro x _
    by_cases hxk : x = k
    · subst hxk
      simp [List.mem_cons]
    · by_cases hxr : x ∈ rest
      · simp [List.mem_cons, hxk, hxr]
      · simp [List.mem_cons, hxk, hxr]

/-- The junction rows left in the call's scope after a successful run. -/
def finalRelationRows (stored desired : List Identity) : List Identity :=
  (stored ++ plannedInserts stored desired).filter
    (fun r => decide (r ∉ plannedDeletes stored desired))

theorem syncManyToManyRelation_run (S D : List Identity) (hS : S.Nodup) :
    syncManyToManyRelation S D = Except.ok (finalRelationRows S D) := by
  rw [syncManyToManyRelation, plannedStmts_eq]
  have h1 : (execPlanT realDriver ((plannedInserts S D).map JStmt.insertRel) S).1 =
      Except.ok (S ++ plannedInserts S D) := by
    rw [execPlanT_inserts]
  rw [execPlanT_append_ok realDriver _ _ S (S ++ plannedInserts S D) h1]
  rw [execPlanT_deletes _ _ (nodup_plannedDeletes S D hS) ?hsub]
  case hsub =>
    intro k hk
    exact List.mem_append.mpr (Or.inl ((mem_plannedDeletes S D hS k).mp hk).1)
  rfl

theorem mem_finalRelationRows (S D : List Identity) (hS : S.Nodup) (x : Identity) :
    x ∈ finalRelationRows S D ↔ x ∈ D := by
  rw [finalRelationRows, List.mem_filter]
  simp only [List.mem_append, mem_plannedInserts, decide_eq_true_eq]
  constructor
  · rintro ⟨hin, hnotdel⟩
    rcases hin with hs | ⟨hd, _⟩
    · by_contra hnd
      exact hnotdel ((mem_plannedDeletes S D hS x).mpr ⟨hs, hnd⟩)
    · exact hd
  · intro hd
    by_cases hs : x ∈ S
    · exact ⟨Or.inl hs, fun hdel =>
        ((mem_plannedDeletes S D hS x).mp hdel).2 hd⟩
    · exact ⟨Or.inr ⟨hd, hs⟩, fun hdel =>
        hs ((mem_plannedDeletes S D hS x).mp hdel).1⟩

theorem nodup_finalRelationRows (S D : List Identity) (hS : S.Nodup) :
    (finalRelationRows S D).Nodup := by
  apply List.Nodup.filter
  rw [List.nodup_append]
  refine ⟨hS, nodup_plannedInserts S D, ?_⟩
  intro x hxS hxIns
  exact ((mem_plannedInserts S D x).mp hxIns).2 hxS

/-- C1: for a many-to-many relation with stored junction identity set `S`
(scoped by the parent's identity and the static condition) and desired set
`D`, `syncManyToManyRelation` succeeds and the post-state junction set is
exactly `D`: the plan inserts exactly the identities of `D` missing from
`S`, deletes exactly the identities of `S` missing from `D`, and touches
identities in both sets with neither kind of statement. -/
theorem m2m_sync_exact_set_difference (S D : List Identity) (hS : S.Nodup) :
    ∃ J, syncManyToManyRelation S D = Except.ok J ∧
      (∀ k, k ∈ J ↔ k ∈ D) ∧
      (∀ k, JStmt.insertRel k ∈ plannedStmts S D ↔ k ∈ D ∧ k ∉ S) ∧
      (∀ k, JStmt.deleteRel k ∈ plannedStmts S D ↔ k ∈ S ∧ k ∉ D) := by
  refine ⟨finalRelationRows S D, syncManyToManyRelation_run S D hS,
    fun k => mem_finalRelationRows S D hS k, fun k => ?_, fun k => ?_⟩
  · rw [plannedStmts_eq]
    simp only [List.mem_append, List.mem_map]
    constructor
    · rintro (⟨a, ha, hEq⟩ | ⟨a, ha, hEq⟩)
      · cases hEq
        exact (mem_plannedInserts S D k).mp ha
      · cases hEq
    · intro h
      exact Or.inl ⟨k, (mem_plannedInserts S D k).mpr h, rfl⟩
  · rw [plannedStmts_eq]
    simp only [List.mem_append, List.mem_map]
    constructor
    · rintro (⟨a, ha, hEq⟩ | ⟨a, ha, hEq⟩)
      · cases hEq
      · cases hEq
        exact (mem_plannedDeletes S D hS k).mp ha
    · intro h
      exact Or.inr ⟨k, (mem_plannedDeletes S D hS k).mpr h, rfl⟩

theorem m2m_sync_exact_set_difference_witness :
    ([[(1 : Int)], [2]] : List Identity).Nodup ∧
      (∃ J, syncManyToManyRelation [[(1 : Int)], [2]] [[2], [3]] = Except.ok J ∧
        (∀ k, k ∈ J ↔ k ∈ ([[2], [3]] : List Identity)) ∧
        (∀ k, JStmt.insertRel k ∈ plannedStmts [[(1 : Int)], [2]] [[2], [3]] ↔
          k ∈ ([[2], [3]] : List Identity) ∧ k ∉ ([[(1 : Int)], [2]] : List Identity)) ∧
        (∀ k, JStmt.deleteRel k ∈ plannedStmts [[(1 : Int)], [2]] [[2], [3]] ↔
          k ∈ ([[(1 : Int)], [2]] : List Identity) ∧ k ∉ ([[2], [3]] : List Identity))) :=
  ⟨by decide, m2m_sync_exact_set_difference [[1], [2]] [[2], [3]] (by decide)⟩

/-- C2: running the many-to-many synchronization again immediately after a
successful run, with the desired set unchanged and the stored set now being
the first run's result, plans zero inserts and zero deletes, executes no
statement, and succeeds leaving the junction rows unchanged. -/
theorem m2m_sync_idempotent (S D J1 : List Identity) (hS : S.Nodup)
    (h1 : syncManyToManyRelation S D = Except.ok J1) :
    plannedStmts J1 D = [] ∧
      syncManyToManyRelation J1 D = Except.ok J1 ∧
      (execPlanT realDriver (plannedStmts J1 D) J1).2 = [] := by
  have hrun := syncManyToManyRelation_run S D hS
  rw [h1] at hrun
  have hJ1 : J1 = finalRelationRows S D := by
    injection hrun
  have hmem : ∀ k, k ∈ J1 ↔ k ∈ D := by
    intro k
    rw [hJ1]
    exact mem_finalRelationRows S D hS k
  have hnd : J1.Nodup := by
    rw [hJ1]
    exact nodup_finalRelationRows S D hS
  have hins : plannedInserts J1 D = [] := by
    rw [List.eq_nil_iff_forall_not_mem]
    intro x hx
    have := (mem_plannedInserts J1 D x).mp hx
    exact this.2 ((hmem x).mpr this.1)
  have hdel : plannedDeletes J1 D = [] := by
    rw [List.eq_nil_iff_forall_not_mem]
    intro x hx
    have := (mem_plannedDeletes J1 D hnd x).mp hx
    exact this.2 ((hmem x).mp this.1)
  have hplan : plannedStmts J1 D = [] := by
    rw [plannedStmts_eq, hins, hdel]
    rfl
  refine ⟨hplan, ?_, ?_⟩
  · rw [syncManyToManyRelation, hplan]
    rfl
  · rw [hplan]
    rfl

theorem m2m_sync_idempotent_witness :
    plannedStmts [[(2 : Int)]] [[2]] = [] ∧
      syncManyToManyRelation [[(2 : Int)]] [[2]] = Except.ok [[2]] :=
  ⟨(m2m_sync_idempotent [[1]] [[2]] [[2]] (by decide) rfl).1,
    (m2m_sync_idempotent [[1]] [[2]] [[2]] (by decide) rfl).2.1⟩

/-! ### Zero affected rows abort the synchronization (C7) -/

theorem execPlanT_ok_all_good (d : JStmt → List Identity → ExecOutcome)
    (plan : List JStmt) (J J2 : List Identity)
    (h : (execPlanT d plan J).1 = Except.ok J2) :
    ∀ p ∈ (execPlanT d plan J).2, badOutcome p.2 = false := by
  induction plan generalizing J with
  | nil => simp [execPlanT]
  | cons s rest ih =>
    simp only [execPlanT] at h ⊢
    cases ho : d s J with
    | execErr => rw [ho] at h; simp at h
    | raErr => rw [ho] at h; simp at h
    | ok n =>
      cases n with
      | zero => rw [ho] at h; simp at h
      | succ m =>
        rw [ho] at h
        dsimp only at h ⊢
        intro p hp
        rcases List.mem_cons.mp hp with rfl | hp2
        · simp [badOutcome]
        · exact ih (applyStmt s J) h p hp2

theorem execPlanT_bad_stops (d : JStmt → List Identity → ExecOutcome)
    (plan : List JStmt) (J : List Identity)
    (tr1 : List (JStmt × ExecOutcome)) (p : JStmt × ExecOutcome)
    (tr2 : List (JStmt × ExecOutcome))
    (htr : (execPlanT d plan J).2 = tr1 ++ p :: tr2)
    (hbad : badOutcome p.2 = true) :
    tr2 = [] ∧ ∃ e, (execPlanT d plan J).1 = Except.error e := by
  induction plan generalizing J tr1 with
  | nil =>
    simp only [execPlanT] at htr
    exact absurd htr.symm (by simp)
  | cons s rest ih =>
    simp only [execPlanT] at htr ⊢
    cases ho : d s J with
    | execErr =>
      rw [ho] at htr
      dsimp only at htr ⊢
      rcases tr1 with _ | ⟨x, xs⟩
      · simp only [List.nil_append] at htr
        have := (List.cons.injEq _ _ _ _).mp htr
        exact ⟨this.2.symm, _, rfl⟩
      · simp only [List.cons_append] at htr
        have := (List.cons.injEq _ _ _ _).mp htr
        exact absurd this.2.symm (by simp)
    | raErr =>
      rw [ho] at htr
      dsimp only at htr ⊢
      rcases tr1 with _ | ⟨x, xs⟩
      · simp only [List.nil_append] at htr
        have := (List.cons.injEq _ _ _ _).mp htr
        exact ⟨this.2.symm, _, rfl⟩
      · simp only [List.cons_append] at htr
        have := (List.cons.injEq _ _ _ _).mp htr
        exact absurd this.2.symm (by simp)
    | ok n =>
      cases n with
      | zero =>
        rw [ho] at htr
        dsimp only at htr ⊢
        rcases tr1 with _ | ⟨x, xs⟩
        · simp only [List.nil_append] at htr
          have := (List.cons.injEq _ _ _ _).mp htr
          exact ⟨this.2.symm, _, rfl⟩
        · simp only [List.cons_append] at htr
          have := (List.cons.injEq _ _ _ _).mp htr
          exact absurd this.2.symm (by simp)
      | succ m =>
        rw [ho] at htr
        dsimp only at htr ⊢
        rcases tr1 with _ | ⟨x, xs⟩
        · simp only [List.nil_append] at htr
          have := (List.cons.injEq _ _ _ _).mp htr
          rw [← this.1] at hbad
          simp [badOutcome] at hbad
        · simp only [List.cons_append] at htr
          have := (List.cons.injEq _ _ _ _).mp htr
          exact ih (applyStmt s J) xs this.2

/-- C7: in many-to-many reconciliation, if a successful result is returned
then every executed reconciling statement affected at least one row (with a
retrievable count), and if any executed statement reports zero affected
rows or an unobtainable count, the synchronization returns an error at
that point: the failing statement is the last one executed. -/
theorem m2m_sync_requires_rows_affected
    (driver : JStmt → List Identity → ExecOutcome) (S D : List Identity) :
    (∀ J2, (execPlanT driver (plannedStmts S D) S).1 = Except.ok J2 →
      ∀ p ∈ (execPlanT driver (plannedStmts S D) S).2, badOutcome p.2 = false) ∧
    (∀ tr1 p tr2, (execPlanT driver (plannedStmts S D) S).2 = tr1 ++ p :: tr2 →
      badOutcome p.2 = true →
      tr2 = [] ∧ ∃ e, (execPlanT driver (plannedStmts S D) S).1 = Except.error e) :=
  ⟨fun J2 h => execPlanT_ok_all_good driver _ S J2 h,
    fun tr1 p tr2 htr hbad => execPlanT_bad_stops driver _ S tr1 p tr2 htr hbad⟩

theorem m2m_sync_requires_rows_affected_witness :
    ([] : List (JStmt × ExecOutcome)) = [] ∧
      ∃ e, (execPlanT (fun _ _ => ExecOutcome.ok 0)
        (plannedStmts [] [[(1 : Int)]]) []).1 = Except.error e :=
  (m2m_sync_requires_rows_affected (fun _ _ => ExecOutcome.ok 0) [] [[1]]).2
    [] (JStmt.insertRel [1], ExecOutcome.ok 0) [] rfl rfl

/-! ## Depth-bounded relation loading (`ormlite.go`)

`QueryStructContext` scans the matched row into the record, then
`loadStructRelations` dispatches each relation field; `loadHasOneRelation`
re-queries the target with `RelationDepth - 1`.  We embed the read path for
a model with a single self-referential has-one field: a table row carries
the integer primary key and the foreign-key column (null = `nil`
`RefPkValue` after scanning).  The loaded result is a chain of records; the
embedding is stated for the nonnegative depths the claims quantify over. -/

structure SelfRow where
  id : Int
  fk : Option Int
deriving DecidableEq, Repr

/-- Scanning the row matched by `where pk = ?`: a matching row fills the
record's columns, no matching row leaves the freshly allocated record at
its zero values (`rows.Next()` loop body never runs). -/
def scanRow (tbl : List SelfRow) (pk : Int) : Int × Option Int :=
  match tbl.find? (fun r => r.id == pk) with
  | some r => (r.id, r.fk)
  | none => (0, none)

/-- A loaded record: `leaf` has its relation pointer still nil, `node`
has the has-one pointer set to a loaded child. -/
inductive LoadedRec where
  | leaf (id : Int) (fk : Option Int)
  | node (id : Int) (fk : Option Int) (child : LoadedRec)
deriving DecidableEq, Repr

/-- `QueryStructContext` at relation depth `n` on the self-referential
model: scan the row; at depth 0 `loadStructRelations` is skipped
(`opts.RelationDepth != 0` fails) leaving the pointer nil; otherwise a null
scanned foreign key makes `loadHasOneRelation` return early
(`ri.RefPkValue == nil`), and a non-null one loads the child with
depth `n - 1` and sets the pointer (`rv.Set(refObj)`). -/
def queryStructDepth (tbl : List SelfRow) : Nat → Int → LoadedRec
  | 0, pk =>
    let s := scanRow tbl pk
    LoadedRec.leaf s.1 s.2
  | n + 1, pk =>
    let s := scanRow tbl pk
    match s.2 with
    | none => LoadedRec.leaf s.1 none
    | some r => LoadedRec.node s.1 (some r) (queryStructDepth tbl n r)

/-- Number of non-null nested has-one levels below a loaded record. -/
def chainLength : LoadedRec → Nat
  | .leaf _ _ => 0
  | .node _ _ _c => chainLength _c + 1

/-- Whether the record's has-one pointer was left at its nil zero value. -/
def relatedIsNil : LoadedRec → Bool
  | .leaf _ _ => true
  | .node _ _ _ => false

theorem scanRow_self (i : Int) : scanRow [⟨i, some i⟩] i = (i, some i) := by
  simp [scanRow, List.find?]

/-- C3: relation loading is bounded solely by the depth counter: depth 0
performs no relation loading and leaves the relation pointer at its nil
zero value; at depth `n + 1` a scanned record hops to its child with depth
`n`; and on a one-step self-referential cycle, loading with depth `N`
terminates and produces exactly `N` non-null nested levels with a nil
pointer at level `N + 1`. -/
theorem depth_bounded_relation_loading :
    (∀ tbl pk, relatedIsNil (queryStructDepth tbl 0 pk) = true) ∧
    (∀ tbl n pk i r, scanRow tbl pk = (i, some r) →
      queryStructDepth tbl (n + 1) pk =
        LoadedRec.node i (some r) (queryStructDepth tbl n r)) ∧
    (∀ i N, chainLength (queryStructDepth [⟨i, some i⟩] N i) = N) := by
  refine ⟨fun tbl pk => rfl, fun tbl n pk i r h => ?_, fun i N => ?_⟩
  · simp [queryStructDepth, h]
  · induction N with
    | zero => rfl
    | succ n ih =>
      rw [queryStructDepth]
      rw [scanRow_self i]
      simp only [chainLength]
      rw [ih]

theorem depth_bounded_relation_loading_witness :
    queryStructDepth [⟨(7 : Int), some 7⟩] 1 7 =
      LoadedRec.node 7 (some 7) (queryStructDepth [⟨(7 : Int), some 7⟩] 0 7) :=
  depth_bounded_relation_loading.2.1 [⟨7, some 7⟩] 0 7 7 7 (scanRow_self 7)

/-! ## Nil options on the has-one read path (C10) -/

/-- The `Options` fields the loader dereferences. -/
structure OptionsE where
  relationDepth : Int
deriving DecidableEq, Repr

/-- Outcome of the relation-loading step of `QueryStructContext`:
a normal return carrying the loaded pointer value, the nil-pointer
dereference (Go runtime panic) on `options.RelationDepth`, or the
`referenced model does not have primary key` error. -/
inductive LoadOutcome where
  | ok (loaded : Option LoadedRec)
  | nilDerefPanic
  | errNoPrimary
deriving DecidableEq, Repr

/-- `loadHasOneRelation`: a nil `ri.RefPkValue` returns before anything
else; then the target's primary column is looked up; only after both does
the code evaluate `options.RelationDepth - 1`, which dereferences a nil
`options` pointer. -/
def loadHasOneRelation (tbl : List SelfRow) (refPkValue : Option Int)
    (refPkFieldFound : Bool) (options : Option OptionsE) : LoadOutcome :=
  match refPkValue with
  | none => LoadOutcome.ok none
  | some v =>
    if refPkFieldFound = false then LoadOutcome.errNoPrimary
    else
      match options with
      | none => LoadOutcome.nilDerefPanic
      | some o =>
        LoadOutcome.ok (some (queryStructDepth tbl (o.relationDepth - 1).toNat v))

/-- `loadStructRelations` guard `opts == nil || opts.RelationDepth != 0`:
nil options also enter the relation-loading branch. -/
def loadStructRelations (tbl : List SelfRow) (options : Option OptionsE)
    (refPkValue : Option Int) (refPkFieldFound : Bool) : LoadOutcome :=
  match options with
  | none => loadHasOneRelation tbl refPkValue refPkFieldFound none
  | some o =>
    if o.relationDepth ≠ 0 then loadHasOneRelation tbl refPkValue refPkFieldFound (some o)
    else LoadOutcome.ok none

/-- C10 counterexample: a call with nil options on a model declaring a
has-one relation with a discoverable target primary key does NOT always
reach the nil dereference: when the scanned foreign-key value is SQL NULL,
`loadHasOneRelation` returns before touching `options` and the call
returns a result. -/
theorem nil_options_no_panic_on_null_fk :
    loadStructRelations [] none none true = LoadOutcome.ok none ∧
      loadStructRelations [] none none true ≠ LoadOutcome.nilDerefPanic :=
  ⟨rfl, by decide⟩

/-- C10 amended: with nil options on such a model, the call reaches the
nil-pointer dereference exactly when the scanned foreign-key value is
non-null (which includes the no-matching-row case, where `RefPkValue`
keeps its non-nil zero initialization); a NULL foreign key skips the
relation and returns normally. -/
theorem nil_options_panics_iff_fk_nonnull (tbl : List SelfRow)
    (refPkValue : Option Int) :
    loadStructRelations tbl none refPkValue true =
      match refPkValue with
      | none => LoadOutcome.ok none
      | some _ => LoadOutcome.nilDerefPanic := by
  cases refPkValue <;> rfl

/-! ## Field-level model of a record (`model.go`, `upsert.go`)

`getModelInfo` turns a record into an ordered field list with kind flags.
We embed scalar column values, relation-free records (`SimpleModel`, the
shape of nested has-one targets — write-path synchronization is cut off
one hop below the parent by the `depth` guard in `syncRelations`), and
parent-level fields (`PField`) that may carry a has-one pointer. -/

inductive Value where
  | vInt (n : Int)
  | vStr (s : String)
  | vNull
deriving DecidableEq, Repr

/-- `isZeroField` on a scalar column: comparison with the type's zero
value (a nil pointer for the null embedding). -/
def isZeroValue : Value → Bool
  | .vInt n => n == 0
  | .vStr s => s == ""
  | .vNull => true

structure SimpleField where
  column : String
  isPk : Bool
  isUnique : Bool
  isOmitted : Bool
  isExpr : Bool
  value : Value
deriving DecidableEq, Repr

structure SimpleModel where
  table : String
  fields : List SimpleField
deriving DecidableEq, Repr

inductive RefKind where
  | hasOne
  | hasMany
  | manyToMany
deriving DecidableEq, Repr

/-- A parent-record field: a scalar column, or a relation field whose
has-one pointer carries an optional nested record (`none` = nil). -/
inductive PField where
  | scalar (f : SimpleField)
  | relation (column : String) (kind : RefKind) (isPk : Bool)
      (nested : Option SimpleModel)
deriving DecidableEq, Repr

def isReferenceField : PField → Bool
  | .scalar _ => false
  | .relation _ _ _ _ => true

def isHasOne : PField → Bool
  | .relation _ RefKind.hasOne _ _ => true
  | _ => false

def isOmittedField : PField → Bool
  | .scalar f => f.isOmitted
  | .relation _ _ _ _ => false

def isExpressionField : PField → Bool
  | .scalar f => f.isExpr
  | .relation _ _ _ _ => false

def isPkField : PField → Bool
  | .scalar f => f.isPk
  | .relation _ _ pk _ => pk

def isUniqueField : PField → Bool
  | .scalar f => f.isUnique
  | .relation _ _ _ _ => false

/-- `isZeroField` on a parent field: a has-one pointer is zero when nil. -/
def isZeroField : PField → Bool
  | .scalar f => isZeroValue f.value
  | .relation _ _ _ nested => nested.isNone

def columnOf : PField → String
  | .scalar f => f.column
  | .relation c _ _ _ => c

/-- Relation-free records seen as parent field lists (the same
`getModelColumns` runs on both). -/
def scalarFields (fields : List SimpleField) : List PField :=
  fields.map PField.scalar

def unscalarFields (fields : List PField) : List SimpleField :=
  fields.filterMap (fun f =>
    match f with
    | PField.scalar s => some s
    | PField.relation _ _ _ _ => none)

/-- `getRefModelPk` inner loop: the first primary-key field holding a
non-zero int64 yields the referenced identity; otherwise nil. -/
def refModelPkAux : List SimpleField → Option Int
  | [] => none
  | f :: rest =>
    if f.isPk then
      if isZeroValue f.value then refModelPkAux rest
      else
        match f.value with
        | Value.vInt n => some n
        | _ => refModelPkAux rest
    else refModelPkAux rest

/-- `getRefModelPk`: nil pointer (or no usable primary key) yields nil. -/
def getRefModelPk : Option SimpleModel → Option Int
  | none => none
  | some m => refModelPkAux m.fields

/-- The `*int64` returned by `getRefModelPk` as a bound parameter:
nil binds SQL NULL. -/
def refPkValue (nested : Option SimpleModel) : Value :=
  match getRefModelPk nested with
  | some n => Value.vInt n
  | none => Value.vNull

/-- The raw `field.value.Interface()` of a parent field. -/
def rawValue : PField → Value
  | .scalar f => f.value
  | .relation _ _ _ nested => refPkValue nested

/-- `getModelColumns`: storable columns, conflict-index columns and bound
arguments, in field order.  Omitted fields and non-has-one relation fields
are skipped; a zero primary key is skipped entirely; a non-zero primary
key and every unique column are added to the conflict indexes; a has-one
field binds `getRefModelPk`. -/
def getModelColumns : List PField → List String × List String × List Value
  | [] => ([], [], [])
  | f :: rest =>
    let r := getModelColumns rest
    if isOmittedField f || (isReferenceField f && !isHasOne f) then r
    else if isPkField f && isZeroField f then r
    else
      ((columnOf f) :: r.1,
        ((if isPkField f then [columnOf f] else []) ++
          (if isUniqueField f then [columnOf f] else [])) ++ r.2.1,
        (if isHasOne f then
          refPkValue (match f with
            | PField.relation _ _ _ nested => nested
            | PField.scalar _ => none)
        else rawValue f) :: r.2.2)

/-- `pkIsNull`: some primary key field still holds its zero value. -/
def pkIsNull (fields : List PField) : Bool :=
  fields.any (fun f => isPkField f && isZeroField f)

/-- `setModelPk`: writes `id` into every zero, non-reference primary key
field. -/
def setModelPk (fields : List PField) (id : Int) : List PField :=
  fields.map (fun f =>
    match f with
    | PField.scalar s =>
      if s.isPk && isZeroValue s.value then
        PField.scalar { s with value := Value.vInt id }
      else PField.scalar s
    | other => other)

def commaJoin (l : List String) : String := String.intercalate "," l

def andJoin (l : List String) : String := String.intercalate " and " l

/-- `strings.Trim(strings.Repeat("?,", n), ",")`. -/
def placeholders (n : Nat) : String :=
  String.intercalate "," (List.replicate n "?")

/-- `inserter.buildUpsertQuery`: insert statement with an
`on conflict(...) do update set ...` clause when conflict updating is on
and index columns exist; the arguments are doubled in that case because
they appear in both the values list and the update set. -/
def buildUpsertQuery (updateConflict : Bool) (table : String)
    (fields : List PField) : String × List Value :=
  let cia := getModelColumns fields
  let updateFields := cia.1.map (fun c => c ++ " = ?")
  let useConflict := updateConflict && !cia.2.1.isEmpty
  let conflictStmt :=
    if useConflict then
      "on conflict(" ++ commaJoin cia.2.1 ++ ") do update set " ++
        commaJoin updateFields
    else ""
  ("insert into " ++ table ++ "(" ++ commaJoin cia.1 ++ ") values(" ++
      placeholders cia.1.length ++ ") " ++ conflictStmt,
    if useConflict then cia.2.2 ++ cia.2.2 else cia.2.2)

/-- `buildSearchQuery`: the follow-up identity lookup, keyed by every
`getModelColumns` column with the conditions joined by a comma. -/
def buildSearchQuery (table : String) (fields : List PField) :
    String × List Value :=
  let cia := getModelColumns fields
  ("select id from " ++ table ++ " where " ++
      commaJoin (cia.1.map (fun c => c ++ " = ?")), cia.2.2)

/-- The column set keying the follow-up search. -/
def searchWhereColumns (fields : List PField) : List String :=
  (getModelColumns fields).1

/-- The claim's reading of the follow-up-lookup key set: only the record's
non-relation field columns (with the code's omitted and zero-primary
exclusions kept).  Stated from the claim's words, for comparison with
`searchWhereColumns`. -/
def claimedSearchColumns : List PField → List String
  | [] => []
  | f :: rest =>
    let r := claimedSearchColumns rest
    if isReferenceField f || isOmittedField f then r
    else if isPkField f && isZeroField f then r
    else columnOf f :: r

/-- A stored table row for the follow-up search: the integer identity the
`select id` projection returns, and the row's cells. -/
structure SRow where
  rowid : Int
  cells : List (String × Value)
deriving DecidableEq, Repr

def cellValue (r : SRow) (c : String) : Value :=
  match r.cells.find? (fun p => p.1 == c) with
  | some p => p.2
  | none => Value.vNull

/-- SQLite executing the text built by `buildSearchQuery`: with exactly
one `col = ?` condition it returns the matching rows' identities; with
zero or several conditions the comma-joined where clause is a syntax
error and the query fails. -/
def execSearchQuery (tbl : List SRow) (cols : List String) (args : List Value) :
    Except String (List Int) :=
  match cols, args with
  | [c], [v] =>
    Except.ok ((tbl.filter (fun r => cellValue r c == v)).map (fun r => r.rowid))
  | _, _ => Except.error "SQL logic error near the comma-joined where clause"

structure InsertResult where
  fields : List PField
  executed : List (String × List Value)
deriving DecidableEq, Repr

/-- `inserter.insert` after the has-one pre-sync: build and execute the
upsert (the driver reports `lastId`); when the driver reports zero and the
primary key is still zero, run the follow-up search and scan the matched
identities (the scan loop leaves the last row's identity, or the previous
`id` when no row matched); finally `setModelPk` writes the resolved
identity into the zero primary key fields.  Models without storable
columns execute nothing. -/
def insertCore (lastId : Int) (searchTbl : List SRow) (updateConflict : Bool)
    (table : String) (fields : List PField) : Except String InsertResult :=
  let qa := buildUpsertQuery updateConflict table fields
  if qa.2.length > 0 then
    if lastId == 0 && pkIsNull fields then
      let sq := buildSearchQuery table fields
      match execSearchQuery searchTbl (searchWhereColumns fields) sq.2 with
      | Except.error e => Except.error e
      | Except.ok ids =>
        Except.ok ⟨setModelPk fields (ids.getLast?.getD lastId), [qa, sq]⟩
    else Except.ok ⟨setModelPk fields lastId, [qa]⟩
  else Except.ok ⟨fields, []⟩

/-- `inserter.syncHasOneRelation`: a nil pointer is ignored; a nested
record whose primary key is not null is left untouched with no statement
issued; otherwise the nested record is recursively inserted by a fresh
inserter (zero-valued `updateConflict`, hence no conflict clause). -/
def syncHasOneRelation (nestedLastId : Int) (searchTbl : List SRow) :
    Option SimpleModel →
      Except String (Option SimpleModel × List (String × List Value))
  | none => Except.ok (none, [])
  | some m =>
    if !pkIsNull (scalarFields m.fields) then Except.ok (some m, [])
    else
      match insertCore nestedLastId searchTbl false m.table (scalarFields m.fields) with
      | Except.error e => Except.error e
      | Except.ok r => Except.ok (some ⟨m.table, unscalarFields r.fields⟩, r.executed)

/-! ## Update and delete error paths (C8) -/

/-- The error values surfaced by update/delete, `ErrNoRowsAffected` being
the distinguished not-found condition. -/
inductive OrmError where
  | noRowsAffected
  | execError (query : String)
  | otherError (msg : String)
deriving DecidableEq, Repr

/-- `IsNotFound`: `err == ErrNoRowsAffected` (false for a nil error). -/
def IsNotFound : Option OrmError → Bool
  | some OrmError.noRowsAffected => true
  | _ => false

/-- Outcome of `db.ExecContext` + `res.RowsAffected()` for update/delete:
execution failure, or success with an affected-row count that may itself
be unobtainable. -/
inductive DriverResult where
  | failed
  | done (rowsAffected : Option Nat)
deriving DecidableEq, Repr

/-- `buildUpdateQuery` accumulator: set columns, their arguments, where
columns and their identities, in field order.  A primary has-one field
would bind the raw pointer, which the driver rejects; the claims never
exercise that corner and `rawValue` stands in for it. -/
def updateParts : List PField →
    List String × List Value × List String × List Value
  | [] => ([], [], [], [])
  | f :: rest =>
    let r := updateParts rest
    if isOmittedField f || isExpressionField f ||
        (isReferenceField f && !isHasOne f) then r
    else if isPkField f then
      (r.1, r.2.1, (columnOf f ++ " = ?") :: r.2.2.1, rawValue f :: r.2.2.2)
    else
      ((columnOf f ++ " = ?") :: r.1,
        (if isHasOne f then
          refPkValue (match f with
            | PField.relation _ _ _ nested => nested
            | PField.scalar _ => none)
        else rawValue f) :: r.2.1, r.2.2.1, r.2.2.2)

/-- `buildUpdateQuery`: `update T set c = ?,... where pk = ? and ...`,
with the identity arguments appended after the column arguments. -/
def buildUpdateQuery (table : String) (fields : List PField) :
    String × List Value :=
  let p := updateParts fields
  ("update " ++ table ++ " set " ++ commaJoin p.1 ++ " where " ++
      andJoin p.2.2.1, p.2.1 ++ p.2.2.2)

/-- `inserter.update` (shallow `deep = false` path): execution errors are
wrapped; an unobtainable affected count surfaces; zero affected rows
return `ErrNoRowsAffected`; otherwise success. -/
def updateModel (driver : DriverResult) (table : String)
    (fields : List PField) : Option OrmError :=
  let qa := buildUpdateQuery table fields
  match driver with
  | DriverResult.failed => some (OrmError.execError qa.1)
  | DriverResult.done none => some (OrmError.otherError "RowsAffected failed")
  | DriverResult.done (some 0) => some OrmError.noRowsAffected
  | DriverResult.done (some (_ + 1)) => none

/-- `Delete` (`ormlite.go`): requires a fully non-zero primary key, builds
`delete from T where pk = ? and ...`, executes it, and returns the driver
result together with a nil error — the affected-row count is never
consulted. -/
def deleteModel (driver : DriverResult) (table : String)
    (fields : List SimpleField) : Except OrmError (Option Nat) :=
  let pks := fields.filterMap (fun f =>
    if f.isPk then some (f.column, f.value) else none)
  if pks.isEmpty then
    Except.error (OrmError.otherError "delete failed: model does not have primary key")
  else if pks.any (fun p => isZeroValue p.2) then
    Except.error (OrmError.otherError "delete failed: model's primary key has zero value")
  else
    match driver with
    | DriverResult.failed =>
      Except.error (OrmError.execError ("delete from " ++ table ++ " where " ++
        andJoin (pks.map (fun p => p.1 ++ " = ?"))))
    | DriverResult.done ra => Except.ok ra

/-! ## Select predicate rendering: the `in (...)` branch (C9) -/

/-- The placeholder cap of the single-key slice branch:
`count := value.Len(); if opts.Limit != 0 && opts.Limit < count`. -/
def inClauseCount (limit len : Nat) : Nat :=
  if limit ≠ 0 ∧ limit < len then limit else len

/-- The single-key slice branch of `queryWithOptions`: renders
`column in (?,...)` with the capped placeholder count, then appends every
slice element to the positional parameters. -/
def renderSliceCondition (k : String) (vals : List Value) (limit : Nat) :
    String × List Value :=
  (k ++ " in (" ++ placeholders (inClauseCount limit vals.length) ++ ")", vals)

/-! ## Has-many synchronization (C5) -/

inductive HMKind where
  | pkCol
  | backRef
  | plain
deriving DecidableEq, Repr

/-- A field of a has-many collection element: its classification relative
to the parent (assignable back-reference, primary key, or other) and its
current value. -/
structure HMField where
  kind : HMKind
  value : Int
deriving DecidableEq, Repr

structure HMElem where
  fields : List HMField
deriving DecidableEq, Repr

/-- Inner field loop of `syncHasManyRelation` for one element: fields are
visited in declaration order; a field assignable from the parent type is
set to the parent's value; reaching a primary-key field with a non-zero
value breaks out of both loops (`break items`).  Returns the updated
fields and whether the break fired. -/
def procFields (parentVal : Int) : List HMField → List HMField × Bool
  | [] => ([], false)
  | f :: fs =>
    let f1 := if f.kind == HMKind.backRef then HMField.mk f.kind parentVal else f
    if f1.kind == HMKind.pkCol && f1.value != 0 then (f1 :: fs, true)
    else
      let rest := procFields parentVal fs
      (f1 :: rest.1, rest.2)

/-- The recursive `ins.insert` on a zero-primary-key element: the upsert
executes and `setModelPk` writes the driver-assigned identity into the
zero primary key fields. -/
def insertElem (newId : Int) (e : HMElem) : HMElem :=
  HMElem.mk (e.fields.map (fun f =>
    if f.kind == HMKind.pkCol && f.value == 0 then HMField.mk f.kind newId else f))

/-- `inserter.syncHasManyRelation`: processes the collection elements in
order; the break stops the whole loop, leaving the remaining elements
untouched.  Returns the final collection and the elements recursively
upserted, in order. -/
def syncHasManyRelation (parentVal : Int) : Int → List HMElem → List HMElem × List HMElem
  | _, [] => ([], [])
  | nextId, e :: es =>
    let p := procFields parentVal e.fields
    if p.2 then (HMElem.mk p.1 :: es, [])
    else
      let e1 := insertElem nextId (HMElem.mk p.1)
      let rest := syncHasManyRelation parentVal (nextId + 1) es
      (e1 :: rest.1, e1 :: rest.2)

/-- The `break items` condition for a whole element: some primary-key
field holds a non-zero value (back-reference patching cannot change it). -/
def hasNonzeroPk (e : HMElem) : Bool :=
  e.fields.any (fun f => f.kind == HMKind.pkCol && f.value != 0)

/-- Index of the first already-persisted element of the collection. -/
def firstStopIdx : List HMElem → Option Nat
  | [] => none
  | e :: es => if hasNonzeroPk e then some 0 else (firstStopIdx es).map (· + 1)

/-- Every back-reference field of the element holds the parent's value. -/
def backRefsSet (parentVal : Int) (e : HMElem) : Bool :=
  e.fields.all (fun f => f.kind != HMKind.backRef || f.value == parentVal)

/-! ## C9: the `in (...)` placeholder/binding correspondence -/

/-- C9 counterexample: with `Where` value `[1,2,3]` and `Limit = 2` the
rendered predicate holds `inClauseCount 2 3 = 2` placeholders, but all
three list elements are appended to the positional parameters, so the
bound values do not correspond one-per-placeholder. -/
theorem in_clause_binding_mismatch :
    inClauseCount 2 3 = 2 ∧
      (renderSliceCondition "id" [Value.vInt 1, Value.vInt 2, Value.vInt 3] 2).2.length = 3 ∧
      (renderSliceCondition "id" [Value.vInt 1, Value.vInt 2, Value.vInt 3] 2).2.length ≠
        inClauseCount 2 3 := by
  refine ⟨by decide, rfl, by decide⟩

/-- C9 amended: the single-key slice branch renders `column in (?,...)`
with one placeholder per element capped at a non-zero `Options.Limit`
smaller than the list length, but binds every list element in order; the
bound parameters correspond one-per-placeholder exactly when no capping
occurs (limit zero or at least the list length). -/
theorem in_clause_rendering (k : String) (vals : List Value) (limit : Nat) :
    (renderSliceCondition k vals limit).1 =
        k ++ " in (" ++ placeholders (inClauseCount limit vals.length) ++ ")" ∧
      (renderSliceCondition k vals limit).2 = vals ∧
      (limit = 0 ∨ vals.length ≤ limit →
        (renderSliceCondition k vals limit).2.length =
          inClauseCount limit vals.length) := by
  refine ⟨rfl, rfl, fun h => ?_⟩
  show vals.length = inClauseCount limit vals.length
  rw [inClauseCount]
  rcases h with h | h
  · rw [if_neg (fun hc => hc.1 h)]
  · rw [if_neg (fun hc => absurd hc.2 (not_lt.mpr h))]

theorem in_clause_rendering_witness :
    (renderSliceCondition "id" [Value.vInt 1] 0).2.length = inClauseCount 0 1 :=
  (in_clause_rendering "id" [Value.vInt 1] 0).2.2 (Or.inl rfl)

/-! ## C8: zero affected rows on update and delete -/

/-- C8 counterexample: `Delete` on a model with a valid non-zero primary
key whose executed statement affects zero rows returns the driver result
with a nil error — it never consults the affected-row count, so the
distinguished not-found condition is not produced. -/
theorem delete_zero_affected_not_reported :
    deleteModel (DriverResult.done (some 0)) "base_model"
        [⟨"id", true, false, false, false, Value.vInt 1⟩] = Except.ok (some 0) ∧
      deleteModel (DriverResult.done (some 0)) "base_model"
        [⟨"id", true, false, false, false, Value.vInt 1⟩] ≠
        Except.error OrmError.noRowsAffected := by
  refine ⟨rfl, fun h => ?_⟩
  rw [show deleteModel (DriverResult.done (some 0)) "base_model"
      [⟨"id", true, false, false, false, Value.vInt 1⟩] = Except.ok (some 0) from rfl] at h
  cases h

/-- C8 amended: `inserter.update` reports a zero-affected-rows result as
`ErrNoRowsAffected`, recognized by `IsNotFound`; `Delete` performs no such
check and returns the driver result together with a nil error whatever the
affected-row count was. -/
theorem update_zero_affected_is_not_found (table tableD : String)
    (fields : List PField) (fieldsD : List SimpleField) (ra : Option Nat)
    (hpk : (fieldsD.filterMap (fun f =>
      if f.isPk then some (f.column, f.value) else none)).isEmpty = false)
    (hnz : (fieldsD.filterMap (fun f =>
      if f.isPk then some (f.column, f.value) else none)).any
        (fun p => isZeroValue p.2) = false) :
    updateModel (DriverResult.done (some 0)) table fields =
        some OrmError.noRowsAffected ∧
      IsNotFound (updateModel (DriverResult.done (some 0)) table fields) = true ∧
      deleteModel (DriverResult.done ra) tableD fieldsD = Except.ok ra := by
  refine ⟨rfl, rfl, ?_⟩
  simp only [deleteModel]
  rw [if_neg (by rw [hpk]; exact Bool.false_ne_true),
    if_neg (by rw [hnz]; exact Bool.false_ne_true)]

theorem update_zero_affected_is_not_found_witness :
    updateModel (DriverResult.done (some 0)) "base_model"
        [PField.scalar ⟨"id", true, false, false, false, Value.vInt 1⟩] =
        some OrmError.noRowsAffected ∧
      IsNotFound (updateModel (DriverResult.done (some 0)) "base_model"
        [PField.scalar ⟨"id", true, false, false, false, Value.vInt 1⟩]) = true ∧
      deleteModel (DriverResult.done (some 3)) "base_model"
        [⟨"id", true, false, false, false, Value.vInt 1⟩] = Except.ok (some 3) :=
  update_zero_affected_is_not_found "base_model" "base_model"
    [PField.scalar ⟨"id", true, false, false, false, Value.vInt 1⟩]
    [⟨"id", true, false, false, false, Value.vInt 1⟩] (some 3) rfl rfl

/-! ## C4: the conflict path of the upsert -/

/-- C4 counterexample: the follow-up lookup is keyed by the
`getModelColumns` columns, which include has-one foreign-key columns, so
it is not keyed only by the record's non-relation field values: on a
record with a regular column and a has-one relation the key sets differ. -/
theorem search_keys_include_relation_columns :
    searchWhereColumns
        [PField.scalar ⟨"id", true, false, false, false, Value.vInt 0⟩,
          PField.scalar ⟨"name", false, false, false, false, Value.vStr "x"⟩,
          PField.relation "related_id" RefKind.hasOne false
            (some ⟨"base_model", [⟨"id", true, false, false, false, Value.vInt 5⟩]⟩)] =
        ["name", "related_id"] ∧
      claimedSearchColumns
        [PField.scalar ⟨"id", true, false, false, false, Value.vInt 0⟩,
          PField.scalar ⟨"name", false, false, false, false, Value.vStr "x"⟩,
          PField.relation "related_id" RefKind.hasOne false
            (some ⟨"base_model", [⟨"id", true, false, false, false, Value.vInt 5⟩]⟩)] =
        ["name"] ∧
      searchWhereColumns
        [PField.scalar ⟨"id", true, false, false, false, Value.vInt 0⟩,
          PField.scalar ⟨"name", false, false, false, false, Value.vStr "x"⟩,
          PField.relation "related_id" RefKind.hasOne false
            (some ⟨"base_model", [⟨"id", true, false, false, false, Value.vInt 5⟩]⟩)] ≠
      claimedSearchColumns
        [PField.scalar ⟨"id", true, false, false, false, Value.vInt 0⟩,
          PField.scalar ⟨"name", false, false, false, false, Value.vStr "x"⟩,
          PField.relation "related_id" RefKind.hasOne false
            (some ⟨"base_model", [⟨"id", true, false, false, false, Value.vInt 5⟩]⟩)] := by
  refine ⟨by decide, by decide, by decide⟩

/-- C4 amended: when the executed upsert reports a last-inserted-id of
zero while the record's primary key is still zero, the engine runs the
follow-up lookup keyed by the `getModelColumns` columns (has-one foreign
keys included) with the conditions joined by a comma — executable SQL only
when there is exactly one such column — scans the matching rows' identity
(last row wins), and writes it into the zero primary key fields. -/
theorem upsert_conflict_path_resolves_pk (table : String) (fields : List PField)
    (searchTbl : List SRow) (c : String) (idx : List String) (v : Value) (rid : Int)
    (hcols : getModelColumns fields = ([c], idx, [v]))
    (hpk : pkIsNull fields = true)
    (hlast : ((searchTbl.filter (fun r => cellValue r c == v)).map
        (fun r => r.rowid)).getLast? = some rid) :
    insertCore 0 searchTbl true table fields =
      Except.ok ⟨setModelPk fields rid,
        [buildUpsertQuery true table fields, buildSearchQuery table fields]⟩ := by
  have hargs : (buildUpsertQuery true table fields).2.length > 0 := by
    simp only [buildUpsertQuery, hcols]
    rcases idx with _ | ⟨a, l⟩
    · simp
    · simp
  simp only [insertCore]
  rw [if_pos hargs]
  rw [if_pos (by rw [hpk]; rfl)]
  rw [show searchWhereColumns fields = [c] by rw [searchWhereColumns, hcols]]
  rw [show (buildSearchQuery table fields).2 = [v] by
    simp only [buildSearchQuery, hcols]]
  simp only [execSearchQuery]
  rw [hlast]
  rfl

theorem upsert_conflict_path_resolves_pk_witness :
    insertCore 0
        [⟨3, [("field", Value.vStr "test 3")]⟩] true "test_unique"
        [PField.scalar ⟨"id", true, false, false, false, Value.vInt 0⟩,
          PField.scalar ⟨"field", false, true, false, false, Value.vStr "test 3"⟩] =
      Except.ok ⟨setModelPk
          [PField.scalar ⟨"id", true, false, false, false, Value.vInt 0⟩,
            PField.scalar ⟨"field", false, true, false, false, Value.vStr "test 3"⟩] 3,
        [buildUpsertQuery true "test_unique"
            [PField.scalar ⟨"id", true, false, false, false, Value.vInt 0⟩,
              PField.scalar ⟨"field", false, true, false, false, Value.vStr "test 3"⟩],
          buildSearchQuery "test_unique"
            [PField.scalar ⟨"id", true, false, false, false, Value.vInt 0⟩,
              PField.scalar ⟨"field", false, true, false, false, Value.vStr "test 3"⟩]]⟩ :=
  upsert_conflict_path_resolves_pk "test_unique"
    [PField.scalar ⟨"id", true, false, false, false, Value.vInt 0⟩,
      PField.scalar ⟨"field", false, true, false, false, Value.vStr "test 3"⟩]
    [⟨3, [("field", Value.vStr "test 3")]⟩] "field" ["field"] (Value.vStr "test 3") 3
    (by decide) (by decide) (by decide)

/-! ## C6: the has-one write-path frame -/

/-- `setModelPk` seen on a relation-free record. -/
def setModelPkS (fields : List SimpleField) (id : Int) : List SimpleField :=
  fields.map (fun s =>
    if s.isPk && isZeroValue s.value then { s with value := Value.vInt id } else s)

theorem setModelPk_scalarFields (fs : List SimpleField) (id : Int) :
    unscalarFields (setModelPk (scalarFields fs) id) = setModelPkS fs id := by
  induction fs with
  | nil => rfl
  | cons f rest ih =>
    simp only [scalarFields, List.map_cons, setModelPk, setModelPkS] at ih ⊢
    by_cases hc : (f.isPk && isZeroValue f.value) = true
    · simp only [hc, if_true]
      simp only [unscalarFields, List.filterMap_cons] at ih ⊢
      rw [ih]
    · simp only [hc, if_false, Bool.false_eq_true]
      simp only [unscalarFields, List.filterMap_cons] at ih ⊢
      rw [ih]

theorem refModelPkAux_after_set (fs : List SimpleField) (id : Int)
    (hz : ∀ f ∈ fs, f.isPk = true → isZeroValue f.value = true)
    (hex : ∃ f ∈ fs, f.isPk = true) (hid : id ≠ 0) :
    refModelPkAux (setModelPkS fs id) = some id := by
  induction fs with
  | nil =>
    rcases hex with ⟨f, hf, _⟩
    cases hf
  | cons f rest ih =>
    simp only [setModelPkS, List.map_cons]
    by_cases hpk : f.isPk = true
    · have hzf := hz f (List.mem_cons_self f rest) hpk
      rw [if_pos (by rw [hpk, hzf]; rfl)]
      simp only [refModelPkAux, hpk, if_true]
      have hnz : isZeroValue (Value.vInt id) = false := by
        simp [isZeroValue, hid]
      rw [if_neg (by rw [hnz]; exact Bool.false_ne_true)]
    · have hpkf : f.isPk = false := Bool.not_eq_true f.isPk ▸ hpk
      rw [if_neg (by rw [hpkf]; simp)]
      simp only [refModelPkAux, hpkf, Bool.false_eq_true, if_false]
      apply ih
      · exact fun g hg => hz g (List.mem_cons_of_mem f hg)
      · rcases hex with ⟨g, hg, hgpk⟩
        rcases List.mem_cons.mp hg with rfl | hgr
        · exact absurd hgpk hpk
        · exact ⟨g, hgr, hgpk⟩

theorem pkIsNull_scalar_of_zero (fs : List SimpleField)
    (hex : ∃ f ∈ fs, f.isPk = true)
    (hz : ∀ f ∈ fs, f.isPk = true → isZeroValue f.value = true) :
    pkIsNull (scalarFields fs) = true := by
  rcases hex with ⟨f, hf, hpk⟩
  rw [pkIsNull, List.any_eq_true]
  refine ⟨PField.scalar f, List.mem_map_of_mem PField.scalar hf, ?_⟩
  simp [isPkField, isZeroField, hpk, hz f hf hpk]

/-- The foreign-key column of a has-one field appears among the parent
upsert's column/argument pairs with `getRefModelPk`'s value, wherever the
field sits in the record. -/
theorem hasOne_arg_in_upsert (c : String) (nested : Option SimpleModel)
    (fs1 fs2 : List PField) :
    (c, refPkValue nested) ∈
      ((getModelColumns (fs1 ++ PField.relation c RefKind.hasOne false nested :: fs2)).1.zip
        (getModelColumns (fs1 ++ PField.relation c RefKind.hasOne false nested :: fs2)).2.2) := by
  induction fs1 with
  | nil =>
    simp [List.nil_append, getModelColumns, isOmittedField, isReferenceField,
      isHasOne, isPkField, isZeroField, columnOf]
  | cons f rest ih =>
    simp only [List.cons_append, getModelColumns]
    by_cases h1 : (isOmittedField f || (isReferenceField f && !isHasOne f)) = true
    · rw [if_pos h1]
      exact ih
    · rw [if_neg h1]
      by_cases h2 : (isPkField f && isZeroField f) = true
      · rw [if_pos h2]
        exact ih
      · rw [if_neg h2]
        dsimp only
        rw [List.zip_cons_cons]
        exact List.mem_cons_of_mem _ ih

/-- C6: during has-one synchronization a nested record whose primary key
is not null is left entirely untouched — the same record comes back and no
statement is issued; only a nested record with zero primary key is
recursively upserted, its primary key fields then hold the driver-assigned
identity, and the parent's upsert binds the foreign-key column to exactly
that identity wherever the relation field sits in the parent. -/
theorem has_one_sync_frame (m : SimpleModel) (nestedLastId : Int)
    (searchTbl : List SRow) (c : String) :
    (pkIsNull (scalarFields m.fields) = false →
      syncHasOneRelation nestedLastId searchTbl (some m) = Except.ok (some m, [])) ∧
    ((∀ f ∈ m.fields, f.isPk = true → isZeroValue f.value = true) →
      (∃ f ∈ m.fields, f.isPk = true) →
      nestedLastId ≠ 0 →
      (getModelColumns (scalarFields m.fields)).2.2 ≠ [] →
      ∃ m2 stmts,
        syncHasOneRelation nestedLastId searchTbl (some m) =
            Except.ok (some m2, stmts) ∧
          stmts ≠ [] ∧
          getRefModelPk (some m2) = some nestedLastId ∧
          ∀ fs1 fs2, (c, Value.vInt nestedLastId) ∈
            ((getModelColumns
                (fs1 ++ PField.relation c RefKind.hasOne false (some m2) :: fs2)).1.zip
              (getModelColumns
                (fs1 ++ PField.relation c RefKind.hasOne false (some m2) :: fs2)).2.2)) := by
  constructor
  · intro hnotnull
    simp only [syncHasOneRelation, hnotnull, Bool.not_false, if_true]
  · intro hz hex hid hcols
    have hnull : pkIsNull (scalarFields m.fields) = true :=
      pkIsNull_scalar_of_zero m.fields hex hz
    have hargs2 : (buildUpsertQuery false m.table (scalarFields m.fields)).2 =
        (getModelColumns (scalarFields m.fields)).2.2 := by
      simp only [buildUpsertQuery, Bool.false_and, Bool.false_eq_true, if_false]
    have hlen : (buildUpsertQuery false m.table (scalarFields m.fields)).2.length > 0 := by
      rw [hargs2]
      exact List.length_pos.mpr hcols
    have hbeq : (nestedLastId == 0) = false := by
      simp [hid]
    refine ⟨⟨m.table, unscalarFields (setModelPk (scalarFields m.fields) nestedLastId)⟩,
      [buildUpsertQuery false m.table (scalarFields m.fields)], ?_, ?_, ?_, ?_⟩
    · simp only [syncHasOneRelation, hnull, Bool.not_true, if_false, Bool.false_eq_true]
      simp only [insertCore]
      rw [if_pos hlen, if_neg (by rw [hbeq]; simp)]
    · simp
    · show refModelPkAux (unscalarFields (setModelPk (scalarFields m.fields) nestedLastId)) =
        some nestedLastId
      rw [setModelPk_scalarFields]
      exact refModelPkAux_after_set m.fields nestedLastId hz hex hid
    · intro fs1 fs2
      have hval : refPkValue (some ⟨m.table,
          unscalarFields (setModelPk (scalarFields m.fields) nestedLastId)⟩) =
          Value.vInt nestedLastId := by
        show (match getRefModelPk (some ⟨m.table,
          unscalarFields (setModelPk (scalarFields m.fields) nestedLastId)⟩) with
          | some n => Value.vInt n
          | none => Value.vNull) = Value.vInt nestedLastId
        rw [show getRefModelPk (some ⟨m.table,
            unscalarFields (setModelPk (scalarFields m.fields) nestedLastId)⟩) =
            some nestedLastId from by
          show refModelPkAux (unscalarFields (setModelPk (scalarFields m.fields) nestedLastId)) =
            some nestedLastId
          rw [setModelPk_scalarFields]
          exact refModelPkAux_after_set m.fields nestedLastId hz hex hid]
      rw [← hval]
      exact hasOne_arg_in_upsert c _ fs1 fs2

theorem has_one_sync_frame_witness :
    (syncHasOneRelation 1 []
        (some ⟨"base_model",
          [⟨"id", true, false, false, false, Value.vInt 7⟩,
            ⟨"field", false, false, false, false, Value.vStr "t"⟩]⟩) =
      Except.ok (some ⟨"base_model",
          [⟨"id", true, false, false, false, Value.vInt 7⟩,
            ⟨"field", false, false, false, false, Value.vStr "t"⟩]⟩, [])) ∧
    (∃ m2 stmts,
      syncHasOneRelation 1 []
          (some ⟨"base_model",
            [⟨"id", true, false, false, false, Value.vInt 0⟩,
              ⟨"field", false, false, false, false, Value.vStr "t"⟩]⟩) =
          Except.ok (some m2, stmts) ∧
        stmts ≠ [] ∧
        getRefModelPk (some m2) = some 1 ∧
        ∀ fs1 fs2, ("related_id", Value.vInt 1) ∈
          ((getModelColumns
              (fs1 ++ PField.relation "related_id" RefKind.hasOne false (some m2) :: fs2)).1.zip
            (getModelColumns
              (fs1 ++ PField.relation "related_id" RefKind.hasOne false (some m2) :: fs2)).2.2)) :=
  ⟨(has_one_sync_frame
      ⟨"base_model",
        [⟨"id", true, false, false, false, Value.vInt 7⟩,
          ⟨"field", false, false, false, false, Value.vStr "t"⟩]⟩ 1 [] "related_id").1
      (by decide),
    (has_one_sync_frame
      ⟨"base_model",
        [⟨"id", true, false, false, false, Value.vInt 0⟩,
          ⟨"field", false, false, false, false, Value.vStr "t"⟩]⟩ 1 [] "related_id").2
      (by decide) (by decide) (by decide) (by decide)⟩

/-! ## C5: has-many synchronization order and stopping -/

theorem procFields_break (parentVal : Int) (fs : List HMField) :
    (procFields parentVal fs).2 =
      fs.any (fun f => f.kind == HMKind.pkCol && f.value != 0) := by
  induction fs with
  | nil => rfl
  | cons f fs ih =>
    obtain ⟨fk, fv⟩ := f
    cases fk with
    | pkCol =>
      by_cases hv : (fv != 0) = true
      · simp [procFields, hv]
      · simp only [Bool.not_eq_true] at hv
        simp [procFields, hv, ih]
    | backRef => simp [procFields, ih]
    | plain => simp [procFields, ih]

theorem procFields_length (parentVal : Int) (fs : List HMField) :
    (procFields parentVal fs).1.length = fs.length := by
  induction fs with
  | nil => rfl
  | cons f fs ih =>
    simp only [procFields]
    split <;> split <;> simp [ih]

theorem procFields_cons_pk_zero (parentVal : Int) (fs : List HMField) :
    procFields parentVal (⟨HMKind.pkCol, 0⟩ :: fs) =
      (⟨HMKind.pkCol, 0⟩ :: (procFields parentVal fs).1,
        (procFields parentVal fs).2) := by
  simp [procFields]

theorem procFields_cons_pk_nonzero (parentVal fv : Int) (fs : List HMField)
    (h : fv ≠ 0) :
    procFields parentVal (⟨HMKind.pkCol, fv⟩ :: fs) =
      (⟨HMKind.pkCol, fv⟩ :: fs, true) := by
  simp [procFields, h]

theorem procFields_cons_backRef (parentVal fv : Int) (fs : List HMField) :
    procFields parentVal (⟨HMKind.backRef, fv⟩ :: fs) =
      (⟨HMKind.backRef, parentVal⟩ :: (procFields parentVal fs).1,
        (procFields parentVal fs).2) := by
  simp [procFields]

theorem procFields_cons_plain (parentVal fv : Int) (fs : List HMField) :
    procFields parentVal (⟨HMKind.plain, fv⟩ :: fs) =
      (⟨HMKind.plain, fv⟩ :: (procFields parentVal fs).1,
        (procFields parentVal fs).2) := by
  simp [procFields]

theorem procFields_backrefs (parentVal : Int) (fs : List HMField)
    (h : (procFields parentVal fs).2 = false) :
    ((procFields parentVal fs).1).all
      (fun f => f.kind != HMKind.backRef || f.value == parentVal) = true := by
  induction fs with
  | nil => rfl
  | cons f fs ih =>
    obtain ⟨fk, fv⟩ := f
    cases fk with
    | pkCol =>
      by_cases hv : fv = 0
      · subst hv
        rw [procFields_cons_pk_zero] at h ⊢
        dsimp only at h ⊢
        rw [List.all_cons, ih h]
        simp
      · rw [procFields_cons_pk_nonzero parentVal fv fs hv] at h
        simp at h
    | backRef =>
      rw [procFields_cons_backRef] at h ⊢
      dsimp only at h ⊢
      rw [List.all_cons, ih h]
      simp
    | plain =>
      rw [procFields_cons_plain] at h ⊢
      dsimp only at h ⊢
      rw [List.all_cons, ih h]
      simp

theorem backRefsSet_insertElem (parentVal newId : Int) (e : HMElem)
    (h : backRefsSet parentVal e = true) :
    backRefsSet parentVal (insertElem newId e) = true := by
  rw [backRefsSet] at h
  rw [backRefsSet, insertElem]
  rw [List.all_eq_true] at h ⊢
  intro f hf
  rcases List.mem_map.mp hf with ⟨g, hg, hgf⟩
  subst hgf
  by_cases hc : (g.kind == HMKind.pkCol && g.value == 0) = true
  · rw [if_pos hc]
    have hk : g.kind = HMKind.pkCol := by
      have := ((Bool.and_eq_true _ _).mp hc).1
      simpa using this
    simp [hk]
  · rw [if_neg hc]
    exact h g hg

/-- The record seen by the break check: patching back-reference fields
never changes a primary-key field, so the break fires exactly on elements
with a non-zero primary key. -/
theorem procFields_break_eq_hasNonzeroPk (parentVal : Int) (e : HMElem) :
    (procFields parentVal e.fields).2 = hasNonzeroPk e :=
  procFields_break parentVal e.fields

/-- C5: has-many synchronization processes the collection in order: the
final collection keeps its length; every recursively upserted element has
all its back-reference fields patched to the parent's value; when the
first element with a non-zero primary key sits at index `i`, exactly the
elements before `i` are upserted (the insert trace is the first `i` final
elements) and everything after index `i` is returned untouched; with no
such element the whole collection is upserted. -/
theorem has_many_sync_stops_at_persisted (parentVal nextId : Int)
    (es : List HMElem) :
    ((syncHasManyRelation parentVal nextId es).1.length = es.length) ∧
    (∀ e ∈ (syncHasManyRelation parentVal nextId es).2,
      backRefsSet parentVal e = true) ∧
    (∀ i, firstStopIdx es = some i →
      (syncHasManyRelation parentVal nextId es).1.drop (i + 1) = es.drop (i + 1) ∧
      (syncHasManyRelation parentVal nextId es).2 =
        (syncHasManyRelation parentVal nextId es).1.take i) ∧
    (firstStopIdx es = none →
      (syncHasManyRelation parentVal nextId es).2 =
        (syncHasManyRelation parentVal nextId es).1) := by
  induction es generalizing nextId with
  | nil =>
    refine ⟨rfl, by simp [syncHasManyRelation], ?_, fun _ => rfl⟩
    intro i h
    cases h
  | cons e es ih =>
    have hpb := procFields_break_eq_hasNonzeroPk parentVal e
    by_cases hb : hasNonzeroPk e = true
    · have hbreak : (procFields parentVal e.fields).2 = true := by rw [hpb, hb]
      have hsync : syncHasManyRelation parentVal nextId (e :: es) =
          (HMElem.mk (procFields parentVal e.fields).1 :: es, []) := by
        simp only [syncHasManyRelation]
        rw [if_pos hbreak]
      have hstop : firstStopIdx (e :: es) = some 0 := by
        simp only [firstStopIdx]
        rw [if_pos hb]
      refine ⟨?_, ?_, ?_, ?_⟩
      · rw [hsync]
        simp
      · rw [hsync]
        intro x hx
        cases hx
      · intro i hi
        rw [hstop] at hi
        cases hi
        rw [hsync]
        exact ⟨by simp, rfl⟩
      · intro hnone
        rw [hstop] at hnone
        cases hnone
    · have hbf : hasNonzeroPk e = false := Bool.not_eq_true (hasNonzeroPk e) ▸ hb
      have hbreak : (procFields parentVal e.fields).2 = false := by rw [hpb, hbf]
      have hsync : syncHasManyRelation parentVal nextId (e :: es) =
          (insertElem nextId (HMElem.mk (procFields parentVal e.fields).1) ::
              (syncHasManyRelation parentVal (nextId + 1) es).1,
            insertElem nextId (HMElem.mk (procFields parentVal e.fields).1) ::
              (syncHasManyRelation parentVal (nextId + 1) es).2) := by
        simp only [syncHasManyRelation]
        rw [if_neg (by rw [hbreak]; exact Bool.false_ne_true)]
      have hstop : firstStopIdx (e :: es) =
          (firstStopIdx es).map (· + 1) := by
        simp only [firstStopIdx]
        rw [if_neg (by rw [hbf]; exact Bool.false_ne_true)]
      have hbr1 : backRefsSet parentVal
          (insertElem nextId (HMElem.mk (procFields parentVal e.fields).1)) = true := by
        apply backRefsSet_insertElem
        rw [backRefsSet]
        exact procFields_backrefs parentVal e.fields hbreak
      refine ⟨?_, ?_, ?_, ?_⟩
      · rw [hsync]
        simp only [List.length_cons]
        rw [(ih (nextId + 1)).1]
      · rw [hsync]
        intro x hx
        rcases List.mem_cons.mp hx with rfl | hx2
        · exact hbr1
        · exact (ih (nextId + 1)).2.1 x hx2
      · intro i hi
        rw [hstop] at hi
        rcases Option.map_eq_some'.mp hi with ⟨j, hj, hji⟩
        subst hji
        have hih := (ih (nextId + 1)).2.2.1 j hj
        rw [hsync]
        constructor
        · simp only [List.drop_succ_cons]
          exact hih.1
        · simp only [List.take_succ_cons]
          rw [hih.2]
      · intro hnone
        rw [hstop] at hnone
        have hes : firstStopIdx es = none := Option.map_eq_none'.mp hnone
        rw [hsync]
        rw [(ih (nextId + 1)).2.2.2 hes]

theorem has_many_sync_stops_at_persisted_witness :
    (syncHasManyRelation 9 1
        [HMElem.mk [⟨HMKind.backRef, 0⟩, ⟨HMKind.pkCol, 0⟩],
          HMElem.mk [⟨HMKind.pkCol, 5⟩],
          HMElem.mk [⟨HMKind.pkCol, 0⟩]]).1.drop 2 =
      [HMElem.mk [⟨HMKind.pkCol, 5⟩],
        HMElem.mk [⟨HMKind.pkCol, 0⟩]].drop 1 ∧
    (syncHasManyRelation 9 1
        [HMElem.mk [⟨HMKind.backRef, 0⟩, ⟨HMKind.pkCol, 0⟩],
          HMElem.mk [⟨HMKind.pkCol, 5⟩],
          HMElem.mk [⟨HMKind.pkCol, 0⟩]]).2 =
      (syncHasManyRelation 9 1
        [HMElem.mk [⟨HMKind.backRef, 0⟩, ⟨HMKind.pkCol, 0⟩],
          HMElem.mk [⟨HMKind.pkCol, 5⟩],
          HMElem.mk [⟨HMKind.pkCol, 0⟩]]).1.take 1 := by
  have h := (has_many_sync_stops_at_persisted 9 1
    [HMElem.mk [⟨HMKind.backRef, 0⟩, ⟨HMKind.pkCol, 0⟩],
      HMElem.mk [⟨HMKind.pkCol, 5⟩],
      HMElem.mk [⟨HMKind.pkCol, 0⟩]]).2.2.1 1 (by decide)
  exact ⟨h.1, h.2⟩

end Ormlite
